import Mathlib

/-!
# Verification of the VAE MNIST training script

Shallow embedding of `s4_debugging_and_logging/exercise_files/vae_mnist_wandb.py`
over exact real arithmetic. Vectors are `List ℝ`, batches are `List (List ℝ)`.
The script's sources of randomness (`torch.randn_like`, `torch.randn`) are made
explicit: the noise is passed as an argument to the embedded functions.
-/

noncomputable section

/-- Script hyperparameter `batch_size = 100`. -/
def batch_size : ℕ := 100

/-- Script hyperparameter `x_dim = 784`. -/
def x_dim : ℕ := 784

/-- Script hyperparameter `hidden_dim = 400`. -/
def hidden_dim : ℕ := 400

/-- Script hyperparameter `latent_dim = 20`. -/
def latent_dim : ℕ := 20

/-- `torch.relu`, applied elementwise. -/
def relu (x : ℝ) : ℝ := max x 0

/-- `torch.sigmoid`, applied elementwise: `1 / (1 + exp (-x))`. -/
def sigmoid (x : ℝ) : ℝ := 1 / (1 + Real.exp (-x))

/-- Dot product of two real vectors (pairing only up to the shorter length,
as all uses are shape-correct). -/
def dot (w x : List ℝ) : ℝ := (List.zipWith (fun a b => a * b) w x).sum

/-- An `nn.Linear` layer: a weight matrix (one row per output feature) and a
bias vector. -/
structure Linear where
  weight : List (List ℝ)
  bias : List ℝ

/-- Applying a linear layer to an input vector: `W x + b`. -/
def Linear.apply (l : Linear) (x : List ℝ) : List ℝ :=
  List.zipWith (fun row b => dot row x + b) l.weight l.bias

/-- `l` is an `nn.Linear(i, o)`: `o` rows of the weight matrix, each of
length `i`, and `o` bias entries. -/
def Linear.hasShape (l : Linear) (i o : ℕ) : Prop :=
  l.weight.length = o ∧ l.bias.length = o ∧ ∀ row ∈ l.weight, row.length = i

/-- The Gaussian MLP `Encoder`: layers `FC_input`, `FC_mean`, `FC_var`. -/
structure Encoder where
  FC_input : Linear
  FC_mean : Linear
  FC_var : Linear

/-- `Encoder.reparameterization`: `z = mean + std * epsilon`, with the noise
`epsilon` (drawn by `torch.randn_like(std)` in the script) passed explicitly. -/
def Encoder.reparameterization (mean std epsilon : List ℝ) : List ℝ :=
  List.zipWith (fun m se => m + se) mean (List.zipWith (fun s e => s * e) std epsilon)

/-- `Encoder.forward` on one sample: hidden relu layer, two linear heads for
mean and log-variance, `std = exp(0.5 * log_var)`, then reparameterized
sampling. Returns `(z, mean, log_var)`. -/
def Encoder.forward (enc : Encoder) (x epsilon : List ℝ) :
    List ℝ × List ℝ × List ℝ :=
  let h := (enc.FC_input.apply x).map relu
  let mean := enc.FC_mean.apply h
  let log_var := enc.FC_var.apply h
  let std := log_var.map (fun t => Real.exp (0.5 * t))
  let z := Encoder.reparameterization mean std epsilon
  (z, mean, log_var)

/-- The Bernoulli MLP `Decoder`: layers `FC_hidden`, `FC_output`. -/
structure Decoder where
  FC_hidden : Linear
  FC_output : Linear

/-- `Decoder.forward` on one latent vector: hidden relu layer, then a
sigmoid output layer. -/
def Decoder.forward (dec : Decoder) (x : List ℝ) : List ℝ :=
  let h := (dec.FC_hidden.apply x).map relu
  (dec.FC_output.apply h).map sigmoid

/-- `Decoder.forward` on a whole batch (applied row by row, as batched
linear algebra does). -/
def Decoder.forwardBatch (dec : Decoder) (xs : List (List ℝ)) : List (List ℝ) :=
  xs.map dec.forward

/-- The composite VAE `Model`: encoder chained into decoder. -/
structure Model where
  encoder : Encoder
  decoder : Decoder

/-- `Model.forward` on one sample: encode, decode the sampled latent,
return `(x_hat, mean, log_var)`. -/
def Model.forward (m : Model) (x epsilon : List ℝ) :
    List ℝ × List ℝ × List ℝ :=
  let r := m.encoder.forward x epsilon
  (m.decoder.forward r.1, r.2.1, r.2.2)

/-- `Model.forward` on a batch, one fresh noise row per sample. -/
def Model.forwardBatch (m : Model) (xs epss : List (List ℝ)) :
    List (List ℝ) × List (List ℝ) × List (List ℝ) :=
  let rs := List.zipWith (fun x e => m.forward x e) xs epss
  (rs.map (fun r => r.1), rs.map (fun r => r.2.1), rs.map (fun r => r.2.2))

/-- One term of the binary cross-entropy between prediction `xh` and
target `x`: `-(x * log xh + (1 - x) * log (1 - xh))`. -/
def bceElem (xh x : ℝ) : ℝ := -(x * Real.log xh + (1 - x) * Real.log (1 - xh))

/-- `nn.functional.binary_cross_entropy(x_hat, x, reduction="sum")`:
the cross-entropy terms summed over every element of every batch row. -/
def binary_cross_entropy_sum (x_hat x : List (List ℝ)) : ℝ :=
  (List.zipWith (fun xhr xr => (List.zipWith bceElem xhr xr).sum) x_hat x).sum

/-- The KL term of the script's loss:
`-0.5 * torch.sum(1 + log_var - mean.pow(2) - log_var.exp())`. -/
def kld (mean log_var : List (List ℝ)) : ℝ :=
  -0.5 * (List.zipWith
    (fun mr lr => (List.zipWith (fun m l => 1 + l - m ^ 2 - Real.exp l) mr lr).sum)
    mean log_var).sum

/-- `loss_function(x, x_hat, mean, log_var)`: summed binary cross-entropy
plus the KL term. -/
def loss_function (x x_hat mean log_var : List (List ℝ)) : ℝ :=
  binary_cross_entropy_sum x_hat x + kld mean log_var

/-- The loss as the specification words it: binary cross-entropy summed over
all elements and the batch (here: over the flattened batches), plus
`KL = -0.5 * Σ (1 + log_var - mean^2 - exp log_var)` summed over all
elements. -/
def loss_function_spec (x x_hat mean log_var : List (List ℝ)) : ℝ :=
  (List.zipWith bceElem x_hat.flatten x.flatten).sum
    + -0.5 * (List.zipWith (fun m l => 1 + l - m ^ 2 - Real.exp l)
        mean.flatten log_var.flatten).sum

/-- The value printed at the end of a training epoch, as the code computes
it: `overall_loss` is the sum of the per-batch losses, and after the inner
`for batch_idx, (x, _) in enumerate(train_loader)` loop the variable
`batch_idx` retains the index of the last batch, i.e. `num_batches - 1`;
the script prints `overall_loss / (batch_idx * batch_size)`. -/
def epochPrintedLoss (batchLosses : List ℝ) : ℝ :=
  batchLosses.sum / (((batchLosses.length - 1 : ℕ) : ℝ) * (batch_size : ℝ))

/-- The epoch average described by the claim: the accumulated per-batch loss
sum divided by the total number of samples processed in the epoch,
`num_batches * batch_size`. -/
def epochAverageLoss (batchLosses : List ℝ) : ℝ :=
  batchLosses.sum / ((batchLosses.length : ℝ) * (batch_size : ℝ))

/-- The training phase `for epoch in range(epochs): ...`: one epoch of
batch iteration, gradient and Adam updates is abstracted as a function
`epochStep` on the model parameters, applied once per epoch. -/
def trainLoop (epochStep : Model → Model) : ℕ → Model → Model
  | 0, m => m
  | n + 1, m => trainLoop epochStep n (epochStep m)

/-- The evaluation phase: under `torch.no_grad()`, iterate the test loader,
run one forward pass on the batch, and `break` at the end of the first
iteration. Returns the (unchanged) model, the number of batches processed,
and the last `(x, x_hat)` pair for the subsequent `save_image` calls. -/
def evalPhase (m : Model) (testBatches : List (List (List ℝ)))
    (epss : List (List ℝ)) :
    Model × ℕ × Option (List (List ℝ) × List (List ℝ)) :=
  match testBatches with
  | [] => (m, 0, none)
  | x :: _ => (m, 1, some (x, (m.forwardBatch x epss).1))

/-- `row.view(1, 28, 28)` on one flattened 784-entry row: the 28 rows of
28 pixel values of one saved image. -/
def toImage (row : List ℝ) : List (List ℝ) :=
  (List.range 28).map (fun i => (row.drop (28 * i)).take 28)

/-- The contents of one saved image file: `batch.view(batch_size, 1, 28, 28)`,
a stack of one 28×28 image per batch row. -/
def imageGrid (b : List (List ℝ)) : List (List (List ℝ)) := b.map toImage

/-- The shape the claim requires of a saved file: 100 images, each 28×28. -/
def gridShapeOK (g : List (List (List ℝ))) : Prop :=
  g.length = 100 ∧ ∀ img ∈ g, img.length = 28 ∧ ∀ r ∈ img, r.length = 28

/-- An `nn.Linear(i, o)` with all weights and biases zero, used to
instantiate the shape theorems at concrete layers. -/
def zeroLinear (i o : ℕ) : Linear :=
  ⟨List.replicate o (List.replicate i 0), List.replicate o 0⟩

/-- A concrete model of the script's configured sizes (784, 400, 20), with
all-zero parameters. -/
def zeroModel : Model :=
  ⟨⟨zeroLinear x_dim hidden_dim, zeroLinear hidden_dim latent_dim,
    zeroLinear hidden_dim latent_dim⟩,
   ⟨zeroLinear latent_dim hidden_dim, zeroLinear hidden_dim x_dim⟩⟩

end

section Helpers

lemma mem_zipWith {α β γ : Type} {f : α → β → γ} :
    ∀ {as : List α} {bs : List β} {c : γ}, c ∈ List.zipWith f as bs →
      ∃ a ∈ as, ∃ b ∈ bs, c = f a b := by
  intro as
  induction as with
  | nil => intro bs c h; simp at h
  | cons a as ih =>
      intro bs c h
      cases bs with
      | nil => simp at h
      | cons b bs =>
          simp only [List.zipWith_cons_cons, List.mem_cons] at h
          rcases h with h | h
          · exact ⟨a, by simp, b, by simp, h⟩
          · obtain ⟨a1, ha, b1, hb, rfl⟩ := ih h
            exact ⟨a1, by simp [ha], b1, by simp [hb], rfl⟩

lemma list_sum_nonpos {l : List ℝ} (h : ∀ x ∈ l, x ≤ 0) : l.sum ≤ 0 := by
  induction l with
  | nil => simp
  | cons a t ih =>
      simp only [List.sum_cons]
      have ha := h a (by simp)
      have ht := ih (fun x hx => h x (by simp [hx]))
      linarith

lemma zipWith_flatten (f : ℝ → ℝ → ℝ) :
    ∀ (as bs : List (List ℝ)), as.map List.length = bs.map List.length →
      List.zipWith f as.flatten bs.flatten
        = (List.zipWith (List.zipWith f) as bs).flatten := by
  intro as
  induction as with
  | nil => intro bs h; simp
  | cons a as ih =>
      intro bs h
      cases bs with
      | nil => simp at h
      | cons b bs =>
          simp only [List.map_cons, List.cons.injEq] at h
          simp only [List.flatten_cons, List.zipWith_cons_cons]
          rw [List.zipWith_append _ _ _ _ _ h.1, ih bs h.2]

lemma Linear.apply_length {l : Linear} {i o : ℕ} (h : l.hasShape i o)
    (x : List ℝ) : (l.apply x).length = o := by
  unfold Linear.apply
  rw [List.length_zipWith _ _ _, h.1, h.2.1, min_self]

lemma Encoder.forward_mean_length {enc : Encoder} {hd ld : ℕ}
    (hm : enc.FC_mean.hasShape hd ld) (x eps : List ℝ) :
    (enc.forward x eps).2.1.length = ld := by
  simp only [Encoder.forward]
  exact Linear.apply_length hm _

lemma Encoder.forward_var_length {enc : Encoder} {hd ld : ℕ}
    (hv : enc.FC_var.hasShape hd ld) (x eps : List ℝ) :
    (enc.forward x eps).2.2.length = ld := by
  simp only [Encoder.forward]
  exact Linear.apply_length hv _

lemma Encoder.forward_latent_length {enc : Encoder} {hd ld : ℕ}
    (hm : enc.FC_mean.hasShape hd ld) (hv : enc.FC_var.hasShape hd ld)
    (x eps : List ℝ) (he : eps.length = ld) :
    (enc.forward x eps).1.length = ld := by
  simp [Encoder.forward, Encoder.reparameterization, List.length_zipWith,
    Linear.apply_length hm, Linear.apply_length hv, he]

lemma Decoder.forward_length {dec : Decoder} {hd od : ℕ}
    (h2 : dec.FC_output.hasShape hd od) (x : List ℝ) :
    (dec.forward x).length = od := by
  simp only [Decoder.forward, List.length_map]
  exact Linear.apply_length h2 _

lemma zipWith_mul_replicate_zero :
    ∀ (s : List ℝ) (n : ℕ), s.length = n →
      List.zipWith (fun a b => a * b) s (List.replicate n 0) = List.replicate n 0 := by
  intro s
  induction s with
  | nil => intro n h; simp at h; simp [← h]
  | cons a s ih =>
      intro n h
      cases n with
      | zero => simp at h
      | succ k =>
          simp only [List.length_cons, Nat.succ.injEq] at h
          simp [List.replicate_succ, ih k h]

lemma zipWith_add_replicate_zero :
    ∀ (m : List ℝ) (n : ℕ), m.length = n →
      List.zipWith (fun a b => a + b) m (List.replicate n 0) = m := by
  intro m
  induction m with
  | nil => intro n h; simp
  | cons a m ih =>
      intro n h
      cases n with
      | zero => simp at h
      | succ k =>
          simp only [List.length_cons, Nat.succ.injEq] at h
          simp [List.replicate_succ, ih k h]

lemma zeroLinear_hasShape (i o : ℕ) : (zeroLinear i o).hasShape i o := by
  refine ⟨by simp [zeroLinear], by simp [zeroLinear], ?_⟩
  intro row hr
  rw [List.eq_of_mem_replicate hr]
  simp

lemma sigmoid_pos (t : ℝ) : 0 < sigmoid t := by
  unfold sigmoid
  positivity

lemma sigmoid_lt_one (t : ℝ) : sigmoid t < 1 := by
  unfold sigmoid
  rw [div_lt_one (by positivity)]
  have h := Real.exp_pos (-t)
  linarith

lemma bceElem_nonneg {xh xv : ℝ} (h1 : 0 < xh) (h2 : xh < 1)
    (h3 : 0 ≤ xv) (h4 : xv ≤ 1) : 0 ≤ bceElem xh xv := by
  unfold bceElem
  have l1 : Real.log xh ≤ 0 := Real.log_nonpos h1.le h2.le
  have l2 : Real.log (1 - xh) ≤ 0 := Real.log_nonpos (by linarith) (by linarith)
  have m1 : 0 ≤ xv * -Real.log xh := mul_nonneg h3 (by linarith)
  have m2 : 0 ≤ (1 - xv) * -Real.log (1 - xh) := mul_nonneg (by linarith) (by linarith)
  nlinarith

lemma kld_term_nonpos (m l : ℝ) : 1 + l - m ^ 2 - Real.exp l ≤ 0 := by
  have h := Real.add_one_le_exp l
  nlinarith [sq_nonneg m]

lemma kld_nonneg (mean log_var : List (List ℝ)) : 0 ≤ kld mean log_var := by
  unfold kld
  have hs : (List.zipWith
      (fun mr lr => (List.zipWith (fun m l => 1 + l - m ^ 2 - Real.exp l) mr lr).sum)
      mean log_var).sum ≤ 0 := by
    apply list_sum_nonpos
    intro s hs
    obtain ⟨mr, _, lr, _, rfl⟩ := mem_zipWith hs
    apply list_sum_nonpos
    intro c hc
    obtain ⟨m, _, l, _, rfl⟩ := mem_zipWith hc
    exact kld_term_nonpos m l
  linarith

lemma decoder_mem_is_sigmoid {dec : Decoder} {x : List ℝ} {v : ℝ}
    (h : v ∈ dec.forward x) : ∃ t : ℝ, v = sigmoid t := by
  simp only [Decoder.forward, List.mem_map] at h
  obtain ⟨t, _, rfl⟩ := h
  exact ⟨t, rfl⟩

lemma toImage_shape {row : List ℝ} (h : row.length = 784) :
    (toImage row).length = 28 ∧ ∀ r ∈ toImage row, r.length = 28 := by
  constructor
  · simp [toImage]
  · intro r hr
    simp only [toImage, List.mem_map, List.mem_range] at hr
    obtain ⟨i, hi, rfl⟩ := hr
    rw [List.length_take, List.length_drop, h]
    omega

lemma gridShapeOK_of (b : List (List ℝ)) (hb : b.length = 100)
    (hr : ∀ r ∈ b, r.length = 784) : gridShapeOK (imageGrid b) := by
  refine ⟨by simp [imageGrid, hb], ?_⟩
  intro img himg
  simp only [imageGrid, List.mem_map] at himg
  obtain ⟨row, hrow, rfl⟩ := himg
  exact toImage_shape (hr row hrow)

end Helpers

/-- C1: the script's `loss_function` returns the binary cross-entropy between
`x_hat` and `x` summed over all elements and the batch, plus the closed-form
KL divergence `-0.5 * Σ (1 + log_var - mean² - exp log_var)` summed over all
elements, as the specification words it (shapes agreeing row by row). -/
theorem C1_loss_formula (x x_hat mean log_var : List (List ℝ))
    (hx : x_hat.map List.length = x.map List.length)
    (hm : mean.map List.length = log_var.map List.length) :
    loss_function x x_hat mean log_var = loss_function_spec x x_hat mean log_var := by
  unfold loss_function loss_function_spec binary_cross_entropy_sum kld
  rw [zipWith_flatten _ _ _ hx, zipWith_flatten _ _ _ hm,
    List.sum_flatten, List.sum_flatten, List.map_zipWith, List.map_zipWith]

/-- Witness for C1 at a concrete 1×1 batch. -/
theorem C1_loss_formula_witness :
    loss_function [[(1:ℝ)/2]] [[(1:ℝ)/3]] [[(2:ℝ)]] [[(3:ℝ)]]
      = loss_function_spec [[(1:ℝ)/2]] [[(1:ℝ)/3]] [[(2:ℝ)]] [[(3:ℝ)]] :=
  C1_loss_formula [[(1:ℝ)/2]] [[(1:ℝ)/3]] [[(2:ℝ)]] [[(3:ℝ)]] rfl rfl

/-- C2: with the encoder layers shaped `xd → hd`, `hd → ld`, `hd → ld` and the
decoder output layer producing `xd` features, every input batch of `n` rows
of length `xd` (with one fresh `ld`-length noise row per sample) yields: a
sampled latent, mean and log-variance of length `ld` per sample, and a
forward pass through the composite model producing a reconstruction of shape
`(n, xd)` and mean/log-variance batches of shape `(n, ld)` — in particular
shapes `(100, 784)` and `(100, 20)` for the script's configuration. -/
theorem C2_shapes (m : Model) (xd hd ld n : ℕ) (xs epss : List (List ℝ))
    (h1 : m.encoder.FC_input.hasShape xd hd)
    (h2 : m.encoder.FC_mean.hasShape hd ld)
    (h3 : m.encoder.FC_var.hasShape hd ld)
    (h4 : m.decoder.FC_output.hasShape hd xd)
    (hxs : xs.length = n) (hxr : ∀ r ∈ xs, r.length = xd)
    (hes : epss.length = n) (her : ∀ e ∈ epss, e.length = ld) :
    (∀ x e : List ℝ, e.length = ld →
        (m.encoder.forward x e).1.length = ld
        ∧ (m.encoder.forward x e).2.1.length = ld
        ∧ (m.encoder.forward x e).2.2.length = ld)
    ∧ (m.forwardBatch xs epss).1.length = n
    ∧ (∀ r ∈ (m.forwardBatch xs epss).1, r.length = xd)
    ∧ (m.forwardBatch xs epss).2.1.length = n
    ∧ (∀ r ∈ (m.forwardBatch xs epss).2.1, r.length = ld)
    ∧ (m.forwardBatch xs epss).2.2.length = n
    ∧ (∀ r ∈ (m.forwardBatch xs epss).2.2, r.length = ld) := by
  refine ⟨?_, ?_, ?_, ?_, ?_, ?_, ?_⟩
  · intro x e he
    exact ⟨Encoder.forward_latent_length h2 h3 x e he,
      Encoder.forward_mean_length h2 x e, Encoder.forward_var_length h3 x e⟩
  · simp [Model.forwardBatch, List.length_zipWith, hxs, hes]
  · intro r hr
    simp only [Model.forwardBatch, List.mem_map] at hr
    obtain ⟨p, hp, rfl⟩ := hr
    obtain ⟨x, _, e, _, rfl⟩ := mem_zipWith hp
    exact Decoder.forward_length h4 _
  · simp [Model.forwardBatch, List.length_zipWith, hxs, hes]
  · intro r hr
    simp only [Model.forwardBatch, List.mem_map] at hr
    obtain ⟨p, hp, rfl⟩ := hr
    obtain ⟨x, _, e, _, rfl⟩ := mem_zipWith hp
    exact Encoder.forward_mean_length h2 x e
  · simp [Model.forwardBatch, List.length_zipWith, hxs, hes]
  · intro r hr
    simp only [Model.forwardBatch, List.mem_map] at hr
    obtain ⟨p, hp, rfl⟩ := hr
    obtain ⟨x, _, e, _, rfl⟩ := mem_zipWith hp
    exact Encoder.forward_var_length h3 x e

/-- Witness for C2 at the script's configuration: a zero-parameter model of
sizes 784/400/20 and a batch of 100 rows of 784 zeros. -/
theorem C2_shapes_witness :
    ((zeroModel.forwardBatch (List.replicate 100 (List.replicate 784 0))
        (List.replicate 100 (List.replicate 20 0))).1.length = 100)
    ∧ (zeroModel.forwardBatch (List.replicate 100 (List.replicate 784 0))
        (List.replicate 100 (List.replicate 20 0))).2.1.length = 100
    ∧ (zeroModel.forwardBatch (List.replicate 100 (List.replicate 784 0))
        (List.replicate 100 (List.replicate 20 0))).2.2.length = 100 := by
  have h := C2_shapes zeroModel 784 400 20 100
    (List.replicate 100 (List.replicate 784 0))
    (List.replicate 100 (List.replicate 20 0))
    (zeroLinear_hasShape x_dim hidden_dim)
    (zeroLinear_hasShape hidden_dim latent_dim)
    (zeroLinear_hasShape hidden_dim latent_dim)
    (zeroLinear_hasShape hidden_dim x_dim)
    (List.length_replicate 100 _)
    (fun r hr => by rw [List.eq_of_mem_replicate hr]; exact List.length_replicate 784 _)
    (List.length_replicate 100 _)
    (fun e he => by rw [List.eq_of_mem_replicate he]; exact List.length_replicate 20 _)
  exact ⟨h.2.1, h.2.2.2.1, h.2.2.2.2.2.1⟩

/-- C3: the encoder's sampled latent is `z = mean + exp(0.5 * log_var) * ε`
elementwise with the noise `ε` passed per call, and when the noise is fixed
to the all-zero vector the sampled latent equals the mean exactly. -/
theorem C3_reparameterization (enc : Encoder) (x eps : List ℝ) (hd ld : ℕ)
    (hm : enc.FC_mean.hasShape hd ld) (hv : enc.FC_var.hasShape hd ld) :
    (enc.forward x eps).1
      = List.zipWith (fun m se => m + se) (enc.forward x eps).2.1
          (List.zipWith (fun l e => Real.exp (0.5 * l) * e)
            (enc.forward x eps).2.2 eps)
    ∧ (enc.forward x (List.replicate ld 0)).1
        = (enc.forward x (List.replicate ld 0)).2.1 := by
  constructor
  · simp only [Encoder.forward, Encoder.reparameterization]
    rw [List.zipWith_map_left]
  · simp only [Encoder.forward, Encoder.reparameterization]
    rw [zipWith_mul_replicate_zero _ ld (by simp [Linear.apply_length hv]),
      zipWith_add_replicate_zero _ ld (Linear.apply_length hm _)]

/-- Witness for C3 at a concrete 2→3→1 encoder with zero noise. -/
theorem C3_reparameterization_witness :
    ((Encoder.mk (zeroLinear 2 3) (zeroLinear 3 1) (zeroLinear 3 1)).forward
        [0, 0] (List.replicate 1 0)).1
      = ((Encoder.mk (zeroLinear 2 3) (zeroLinear 3 1) (zeroLinear 3 1)).forward
        [0, 0] (List.replicate 1 0)).2.1 :=
  (C3_reparameterization (Encoder.mk (zeroLinear 2 3) (zeroLinear 3 1) (zeroLinear 3 1))
    [0, 0] [0] 3 1 (zeroLinear_hasShape 3 1) (zeroLinear_hasShape 3 1)).2

/-- C4: every element of the decoder's output lies within `[0, 1]` (the
range of the final sigmoid), and the decoder is a deterministic function of
its parameters and input: equal parameters and inputs give equal outputs. -/
theorem C4_decoder_range (dec : Decoder) (x : List ℝ) :
    (∀ v ∈ dec.forward x, 0 ≤ v ∧ v ≤ 1)
    ∧ ∀ (dec2 : Decoder) (y : List ℝ), dec2 = dec → y = x →
        dec2.forward y = dec.forward x := by
  constructor
  · intro v hv
    obtain ⟨t, rfl⟩ := decoder_mem_is_sigmoid hv
    exact ⟨(sigmoid_pos t).le, (sigmoid_lt_one t).le⟩
  · intro dec2 y h1 h2
    rw [h1, h2]

/-- Witness for C4 at a concrete 1→1→1 zero decoder on input `[0]`. -/
theorem C4_decoder_range_witness :
    ((0:ℝ) ≤ sigmoid 0 ∧ sigmoid 0 ≤ 1)
    ∧ (Decoder.mk (zeroLinear 1 1) (zeroLinear 1 1)).forward [0]
        = (Decoder.mk (zeroLinear 1 1) (zeroLinear 1 1)).forward [0] := by
  refine ⟨(C4_decoder_range (Decoder.mk (zeroLinear 1 1) (zeroLinear 1 1)) [0]).1
    (sigmoid 0) ?_,
    (C4_decoder_range (Decoder.mk (zeroLinear 1 1) (zeroLinear 1 1)) [0]).2
      (Decoder.mk (zeroLinear 1 1) (zeroLinear 1 1)) [0] rfl rfl⟩
  simp [Decoder.forward, Linear.apply, zeroLinear, dot, relu]

/-- C5: for every original batch `x` with values in `[0, 1]` and every
reconstruction `x_hat` with values strictly within `(0, 1)`, the value of
`loss_function` is non-negative, for every mean and log-variance batch. -/
theorem C5_loss_nonneg (x x_hat mean log_var : List (List ℝ))
    (hx : ∀ r ∈ x, ∀ v ∈ r, 0 ≤ v ∧ v ≤ 1)
    (hxh : ∀ r ∈ x_hat, ∀ v ∈ r, 0 < v ∧ v < 1) :
    0 ≤ loss_function x x_hat mean log_var := by
  unfold loss_function
  have h1 : 0 ≤ binary_cross_entropy_sum x_hat x := by
    unfold binary_cross_entropy_sum
    apply List.sum_nonneg
    intro s hs
    obtain ⟨xhr, hxhr, xr, hxr, rfl⟩ := mem_zipWith hs
    apply List.sum_nonneg
    intro c hc
    obtain ⟨xh, hxh1, xv, hxv, rfl⟩ := mem_zipWith hc
    have p := hxh xhr hxhr xh hxh1
    have q := hx xr hxr xv hxv
    exact bceElem_nonneg p.1 p.2 q.1 q.2
  have h2 := kld_nonneg mean log_var
  linarith

/-- Witness for C5 at a concrete 1×1 batch. -/
theorem C5_loss_nonneg_witness :
    0 ≤ loss_function [[(1:ℝ)/2]] [[(1:ℝ)/2]] [[(3:ℝ)]] [[(-2:ℝ)]] := by
  apply C5_loss_nonneg
  · intro r hr v hv
    simp only [List.mem_singleton] at hr
    subst hr
    simp only [List.mem_singleton] at hv
    subst hv
    norm_num
  · intro r hr v hv
    simp only [List.mem_singleton] at hr
    subst hr
    simp only [List.mem_singleton] at hv
    subst hv
    norm_num

/-- C6: the KL term of the loss evaluates to exactly 0 when the mean batch
and the log-variance batch are 0 elementwise. -/
theorem C6_kld_zero (mean log_var : List (List ℝ))
    (hm : ∀ r ∈ mean, ∀ v ∈ r, v = 0) (hl : ∀ r ∈ log_var, ∀ v ∈ r, v = 0) :
    kld mean log_var = 0 := by
  unfold kld
  have hs : (List.zipWith
      (fun mr lr => (List.zipWith (fun m l => 1 + l - m ^ 2 - Real.exp l) mr lr).sum)
      mean log_var).sum = 0 := by
    apply List.sum_eq_zero
    intro s hs
    obtain ⟨mr, hmr, lr, hlr, rfl⟩ := mem_zipWith hs
    apply List.sum_eq_zero
    intro c hc
    obtain ⟨m, hm1, l, hl1, rfl⟩ := mem_zipWith hc
    rw [hm mr hmr m hm1, hl lr hlr l hl1]
    norm_num [Real.exp_zero]
  rw [hs]
  ring

/-- Witness for C6 at a concrete 1×1 batch of zeros. -/
theorem C6_kld_zero_witness : kld [[(0:ℝ)]] [[(0:ℝ)]] = 0 := by
  apply C6_kld_zero
  · intro r hr v hv
    simp only [List.mem_singleton] at hr
    subst hr
    simpa using hv
  · intro r hr v hv
    simp only [List.mem_singleton] at hr
    subst hr
    simpa using hv

/-- C7, evaluated at the failing input: for an epoch of two batches with
per-batch losses 100 and 100 (`batch_size = 100`), the console line prints
`overall_loss / (batch_idx * batch_size) = 200 / ((2 - 1) * 100) = 2`, but
the average over the `2 * 100` samples processed is `1`; the printed value
is not the epoch's average loss. -/
theorem C7_printed_not_average :
    epochPrintedLoss [100, 100] = 2 ∧ epochAverageLoss [100, 100] = 1
      ∧ epochPrintedLoss [100, 100] ≠ epochAverageLoss [100, 100] := by
  norm_num [epochPrintedLoss, epochAverageLoss, batch_size]

/-- C8 counterexample: with two test batches, the evaluation phase processes
only one batch (the loop body ends in `break`), not all of them. -/
theorem C8_eval_counterexample :
    (evalPhase zeroModel [[[0]], [[0]]] [[0]]).2.1
      ≠ ([[[(0:ℝ)]], [[0]]] : List (List (List ℝ))).length := by
  norm_num [evalPhase]

/-- C8 as amended: the evaluation phase performs no parameter updates — the
model is unchanged — and processes only the first test batch
(`min 1 (number of test batches)` batches, not all of them). -/
theorem C8_eval_frame (m : Model) (testBatches : List (List (List ℝ)))
    (epss : List (List ℝ)) :
    (evalPhase m testBatches epss).1 = m
    ∧ (evalPhase m testBatches epss).2.1 = min 1 testBatches.length := by
  cases testBatches with
  | nil => exact ⟨rfl, by simp [evalPhase]⟩
  | cons b bs =>
      refine ⟨rfl, ?_⟩
      simp only [evalPhase, List.length_cons]
      omega

/-- C9: with 0 training epochs the training loop returns the model with its
initial parameters, and the evaluation and sampling outputs still have the
correct saved shape: the original test batch, its reconstruction through the
untrained model, and the decoded random noise each yield 100 images of
28×28. -/
theorem C9_zero_epochs (epochStep : Model → Model) (m0 : Model)
    (testBatch : List (List ℝ)) (epss noise : List (List ℝ))
    (hd2 : m0.decoder.FC_output.hasShape hidden_dim x_dim)
    (htb : testBatch.length = batch_size)
    (htbr : ∀ r ∈ testBatch, r.length = x_dim)
    (heps : epss.length = batch_size)
    (hn : noise.length = batch_size) :
    trainLoop epochStep 0 m0 = m0
    ∧ gridShapeOK (imageGrid testBatch)
    ∧ gridShapeOK (imageGrid ((trainLoop epochStep 0 m0).forwardBatch testBatch epss).1)
    ∧ gridShapeOK (imageGrid ((trainLoop epochStep 0 m0).decoder.forwardBatch noise)) := by
  refine ⟨rfl, gridShapeOK_of _ htb htbr, ?_, ?_⟩
  · apply gridShapeOK_of
    · show ((m0.forwardBatch testBatch epss).1).length = 100
      simp [Model.forwardBatch, List.length_zipWith, htb, heps, batch_size]
    · intro r hr
      simp only [trainLoop] at hr
      simp only [Model.forwardBatch, List.mem_map] at hr
      obtain ⟨p, hp, rfl⟩ := hr
      obtain ⟨xr, _, e, _, rfl⟩ := mem_zipWith hp
      exact Decoder.forward_length hd2 _
  · apply gridShapeOK_of
    · show (noise.map m0.decoder.forward).length = 100
      simp [hn, batch_size]
    · intro r hr
      simp only [trainLoop, Decoder.forwardBatch, List.mem_map] at hr
      obtain ⟨z, _, rfl⟩ := hr
      exact Decoder.forward_length hd2 _

/-- Witness for C9: identity epoch step, the zero-parameter 784/400/20 model,
and all-zero test batch and noise of the script's sizes. -/
theorem C9_zero_epochs_witness :
    trainLoop id 0 zeroModel = zeroModel
    ∧ gridShapeOK (imageGrid (List.replicate 100 (List.replicate 784 0))) := by
  have h := C9_zero_epochs id zeroModel
    (List.replicate 100 (List.replicate 784 0))
    (List.replicate 100 (List.replicate 20 0))
    (List.replicate 100 (List.replicate 20 0))
    (zeroLinear_hasShape hidden_dim x_dim)
    (List.length_replicate 100 _)
    (fun r hr => by rw [List.eq_of_mem_replicate hr]; exact List.length_replicate 784 _)
    (List.length_replicate 100 _)
    (List.length_replicate 100 _)
  exact ⟨h.1, h.2.1⟩

/-- C10: over exact real arithmetic the sigmoid never attains its endpoints,
so every element `v` of a decoder output satisfies `0 < v` and `0 < 1 - v`:
both arguments of the logarithms of the binary cross-entropy terms are
strictly positive whenever the reconstruction is a decoder output. -/
theorem C10_bce_log_defined (dec : Decoder) (x : List ℝ) :
    (∀ t : ℝ, 0 < sigmoid t ∧ sigmoid t < 1)
    ∧ ∀ v ∈ dec.forward x, 0 < v ∧ 0 < 1 - v := by
  refine ⟨fun t => ⟨sigmoid_pos t, sigmoid_lt_one t⟩, ?_⟩
  intro v hv
  obtain ⟨t, rfl⟩ := decoder_mem_is_sigmoid hv
  exact ⟨sigmoid_pos t, by linarith [sigmoid_lt_one t]⟩

/-- Witness for C10 at a concrete 2→1→1 zero decoder on input `[0, 0]`. -/
theorem C10_bce_log_defined_witness :
    ((0:ℝ) < sigmoid 0 ∧ sigmoid 0 < 1)
    ∧ ((0:ℝ) < sigmoid 0 ∧ (0:ℝ) < 1 - sigmoid 0) := by
  refine ⟨(C10_bce_log_defined (Decoder.mk (zeroLinear 2 1) (zeroLinear 1 1)) [0, 0]).1 0,
    (C10_bce_log_defined (Decoder.mk (zeroLinear 2 1) (zeroLinear 1 1)) [0, 0]).2
      (sigmoid 0) ?_⟩
  simp [Decoder.forward, Linear.apply, zeroLinear, dot, relu]
